import Mathlib

/-!
Verification of the rexpect core (reader / needle algebra / session / process)

Shallow embedding of `src/reader.rs`, `src/session.rs` and `src/process.rs`.

The reader buffer is a Rust `String`; bytes read from the pty are pushed one
by one via `c as char`, so each buffer element is a Unicode scalar value in
`0..=255`.  Rust `String` methods (`len`, `find`, slicing, `drain`) work on
the UTF-8 byte stream, so positions in the code are *byte* positions.  We
model the buffer as a `List Nat` of scalar values and keep byte positions
explicit: `charBytes c` is the UTF-8 width of scalar `c`, and slicing at a
byte index that is not a character boundary is `none` (a Rust panic site).
-/

/-- A buffer / string: the list of Unicode scalar values, in order. -/
abbrev Buf := List Nat

/-- Scalar values of a Lean string literal (all our literals are ASCII). -/
def strM (s : String) : Buf := s.toList.map Char.toNat

/-- UTF-8 width in bytes of a Unicode scalar value (as in Rust `char::len_utf8`). -/
def charBytes (c : Nat) : Nat :=
  if c < 0x80 then 1 else if c < 0x800 then 2 else if c < 0x10000 then 3 else 4

/-- Rust `str::len`: length in UTF-8 bytes. -/
def byteLen : Buf → Nat
  | [] => 0
  | c :: rest => charBytes c + byteLen rest

/-- Split a buffer at byte index `n` (Rust `&s[..n]` / `&s[n..]`).
`none` when `n` is past the end or falls inside a character — both are
panic sites in the Rust code. -/
def splitAtBytes : Nat → Buf → Option (Buf × Buf)
  | 0, s => some ([], s)
  | _ + 1, [] => none
  | n + 1, c :: cs =>
    if charBytes c ≤ n + 1 then
      (splitAtBytes (n + 1 - charBytes c) cs).map (fun p => (c :: p.1, p.2))
    else
      none

/-- Rust struct `Match` from `reader.rs`: begin/end byte positions plus the payload. -/
structure MatchT (I : Type) where
  begin : Nat
  endPos : Nat
  interest : I
  deriving DecidableEq, Repr

/-- Outcome of `Needle::find`: no match, a match, or a Rust panic
(out-of-bounds / non-boundary slice). -/
inductive FindRes (I : Type) where
  | miss : FindRes I
  | panicked : FindRes I
  | found : MatchT I → FindRes I
  deriving DecidableEq, Repr

/-- Abstraction of `regex::Regex::find`: on a match the library yields the
buffer split as (text before the match, matched text, text after), from which
`mat.start()` and `mat.end()` are the byte lengths. -/
abbrev RegexM := Buf → Option (Buf × Buf × Buf)

/-- The needle algebra of `reader.rs`: `Str`, `Regx`, `EOF`, `NBytes` and
the binary alternation `UntilOr` built by `Until::or`. -/
inductive NeedleT where
  | str : Buf → NeedleT
  | regx : RegexM → NeedleT
  | eof : NeedleT
  | nbytes : Nat → NeedleT
  | untilOr : NeedleT → NeedleT → NeedleT

/-- The associated `Interest` type of each needle. -/
def NeedleT.Interest : NeedleT → Type
  | .str _ => Buf
  | .regx _ => Buf × Buf
  | .eof => Buf
  | .nbytes _ => Buf
  | .untilOr a b => a.Interest ⊕ b.Interest

instance (s : Buf) : DecidableEq (NeedleT.str s).Interest :=
  inferInstanceAs (DecidableEq Buf)

instance (r : RegexM) : DecidableEq (NeedleT.regx r).Interest :=
  inferInstanceAs (DecidableEq (Buf × Buf))

instance : DecidableEq NeedleT.eof.Interest :=
  inferInstanceAs (DecidableEq Buf)

instance (k : Nat) : DecidableEq (NeedleT.nbytes k).Interest :=
  inferInstanceAs (DecidableEq Buf)

instance (a b : NeedleT) [DecidableEq a.Interest] [DecidableEq b.Interest] :
    DecidableEq (NeedleT.untilOr a b).Interest :=
  inferInstanceAs (DecidableEq (a.Interest ⊕ b.Interest))

/-- Test whether the first buffer starts the second (Rust substring test at
one position). -/
def leadsWith : Buf → Buf → Bool
  | [], _ => true
  | _ :: _, [] => false
  | a :: as, b :: bs => a == b && leadsWith as bs

/-- Model of Rust `str::find(s)`: byte index of the first occurrence of `s`,
returned here as the split (text before the occurrence, text from the
occurrence on). -/
def strFindSplit (needle : Buf) : Buf → Option (Buf × Buf)
  | [] => if needle.isEmpty then some ([], []) else none
  | c :: rest =>
    if leadsWith needle (c :: rest) then some ([], c :: rest)
    else (strFindSplit needle rest).map (fun p => (c :: p.1, p.2))

/-- The method `Needle::find` for each needle, from `reader.rs`:
* `Str::find`: first occurrence at byte `pos`; match is
  `(pos, pos + s.len())` with interest `buffer[..pos]`;
* `Regx::find`: `Match::new(0, mat.end(), (buffer[..mat.start()], buffer[mat.start()..mat.end()]))`
  — note the begin position is the literal `0`, not `mat.start()`;
* `EOF::find`: iff the eof flag is set, `(0, buffer.len())` with the whole buffer;
* `NBytes::find`: if `n <= buffer.len()` then `(0, n)` with `buffer[..n]`
  (a panic when byte `n` is inside a character), else at eof on a non-empty
  buffer `(0, buffer.len())` with the whole buffer;
* `UntilOr::find`: left needle first, wrapping with `Lhs`/`Rhs`. -/
def NeedleT.find : (n : NeedleT) → Buf → Bool → FindRes n.Interest
  | .str s, buffer, _ =>
    match strFindSplit s buffer with
    | some (pre, _) => .found ⟨byteLen pre, byteLen pre + byteLen s, pre⟩
    | none => .miss
  | .regx r, buffer, _ =>
    match r buffer with
    | some (pre, mat, _) => .found ⟨0, byteLen pre + byteLen mat, (pre, mat)⟩
    | none => .miss
  | .eof, buffer, e =>
    if e then .found ⟨0, byteLen buffer, buffer⟩ else .miss
  | .nbytes k, buffer, e =>
    if k ≤ byteLen buffer then
      match splitAtBytes k buffer with
      | some (pre, _) => .found ⟨0, k, pre⟩
      | none => .panicked
    else if e = true ∧ 0 < byteLen buffer then
      .found ⟨0, byteLen buffer, buffer⟩
    else
      .miss
  | .untilOr a b, buffer, e =>
    match a.find buffer e with
    | .found m => .found ⟨m.begin, m.endPos, Sum.inl m.interest⟩
    | .panicked => .panicked
    | .miss =>
      match b.find buffer e with
      | .found m => .found ⟨m.begin, m.endPos, Sum.inr m.interest⟩
      | .panicked => .panicked
      | .miss => .miss

/-- The `fmt::Display` rendering of a needle, used in the spec's error
claims.  `none` where the source rendering is not defined in the model:
`Str`'s own `Display` for strings other than `"\n"`/`"\r"` formats
`self` recursively (it never terminates), and `Regx`'s rendering needs the
regex source text, which the matcher abstraction does not carry. -/
def displayN : NeedleT → Option Buf
  | .str s =>
    if s = strM "\n" then some (strM "\\n (newline)")
    else if s = strM "\r" then some (strM "\\r (carriage return)")
    else none
  | .regx _ => none
  | .eof => some (strM "EOF (End of File)")
  | .nbytes k => some (strM "reading " ++ strM (toString k) ++ strM " bytes")
  | .untilOr a b =>
    match displayN a, displayN b with
    | some da, some db => some (strM "until " ++ da ++ strM " or " ++ db ++ strM ";")
    | _, _ => none

/-- A concrete regex matcher for test inputs: the first match of `[0-9]`
(one decimal digit), returned as the buffer split around it. -/
def digitM : Buf → Option (Buf × Buf × Buf)
  | [] => none
  | c :: rest =>
    if 48 ≤ c ∧ c ≤ 57 then some ([], [c], rest)
    else (digitM rest).map (fun p => (c :: p.1, p.2.1, p.2.2))

example : NeedleT.find (.str (strM "lo")) (strM "hello") false
    = .found ⟨3, 5, strM "hel"⟩ := rfl

example : NeedleT.find (.nbytes 2) (strM "abc") true = .found ⟨0, 2, strM "ab"⟩ := rfl

example : displayN (.nbytes 5) = some (strM "reading 5 bytes") := by decide

/-! The non-blocking reader (`NBReader`) -/

/-- An item of the producer channel (`PipedChar` / `PipeError` in
`reader.rs`): a byte, the end-of-stream marker, or an IO error whose kind
either is `io::ErrorKind::Other` or is something else. -/
inductive PipedItem where
  | char : Nat → PipedItem
  | eofItem : PipedItem
  | ioErrOther : PipedItem
  | ioErrDifferent : PipedItem
  deriving DecidableEq, Repr

/-- The consumer-visible reader state: the buffer, the sticky eof flag, and
the channel items currently available to `try_recv`. -/
structure RState where
  buffer : Buf
  eof : Bool
  pending : List PipedItem
  deriving DecidableEq, Repr

/-- The `while let Ok(..) = try_recv()` drain loop of `read_into_buffer`:
a byte `b` is pushed as `b as char` (one scalar value, `b` itself); an EOF
item or an IO error of kind `Other` sets the eof flag; other errors are
discarded. -/
def drainItems : Buf → Bool → List PipedItem → Buf × Bool
  | buffer, e, [] => (buffer, e)
  | buffer, e, .char b :: rest => drainItems (buffer ++ [b]) e rest
  | buffer, _, .eofItem :: rest => drainItems buffer true rest
  | buffer, _, .ioErrOther :: rest => drainItems buffer true rest
  | buffer, e, .ioErrDifferent :: rest => drainItems buffer e rest

/-- Model of `NBReader::read_into_buffer`: returns immediately when the eof flag is
already set (no `try_recv` at all), otherwise drains every available item. -/
def readIntoBuffer (st : RState) : RState :=
  if st.eof then st
  else
    let d := drainItems st.buffer st.eof st.pending
    ⟨d.1, d.2, []⟩

/-- Sanitization of the buffer in a timeout error:
`.replace("\n", "`\\n`\n").replace("\r", "`\\r`").replace('\u{1b}', "`^`")`. -/
def sanitize (s : Buf) : Buf :=
  ((s.flatMap fun c => if c = 10 then strM "`\\n`\n" else [c]).flatMap
      fun c => if c = 13 then strM "`\\r`" else [c]).flatMap
    fun c => if c = 27 then strM "`^`" else [c]

/-- The literal placeholder `"ERROR NEEDLE"` that `read_until` puts into the
`expected` field of both of its errors. -/
def errNeedle : Buf := strM "ERROR NEEDLE"

/-- Outcome of one `read_until` call, given the channel items available now
and no further producer activity:
* `ok interest st` — a match: the interest is returned, `st` is the reader
  afterwards;
* `eofErr expected got exit st` — `ErrorKind::EOF(expected, got, exit)`;
* `timeoutErr expected got ms st` — `ErrorKind::Timeout` (the eventual
  outcome when a timeout is configured and no match ever appears);
* `wouldBlock st` — no match, no eof, no timeout configured: the loop
  sleeps and retries forever;
* `panicked` — a Rust panic (slice at a non-character-boundary). -/
inductive RUOut (I : Type) where
  | ok : I → RState → RUOut I
  | eofErr : Buf → Buf → Option Buf → RState → RUOut I
  | timeoutErr : Buf → Buf → Nat → RState → RUOut I
  | wouldBlock : RState → RUOut I
  | panicked : RUOut I
  deriving DecidableEq, Repr

/-- Model of `NBReader::read_until` from `reader.rs`, on the channel items available
at call time: drain, ask the needle; on a match drain `..begin` and then
`..(end - begin)` from the buffer front and return the interest; otherwise
fail with EOF (`("ERROR NEEDLE", buffer, None)`) if the eof flag is set,
else with Timeout (`("ERROR NEEDLE", sanitized buffer, timeout)`) if a
timeout is configured, else loop forever. -/
def readUntil (n : NeedleT) (st : RState) (timeout : Option Nat) : RUOut n.Interest :=
  let st1 := readIntoBuffer st
  match n.find st1.buffer st1.eof with
  | .panicked => .panicked
  | .found m =>
    match splitAtBytes m.begin st1.buffer with
    | none => .panicked
    | some (_, b1) =>
      match splitAtBytes (m.endPos - m.begin) b1 with
      | none => .panicked
      | some (_, b2) => .ok m.interest ⟨b2, st1.eof, st1.pending⟩
  | .miss =>
    if st1.eof then .eofErr errNeedle st1.buffer none st1
    else
      match timeout with
      | some ms => .timeoutErr errNeedle (sanitize st1.buffer) ms st1
      | none => .wouldBlock st1

/-! The session layer (`session.rs`) -/

/-- Model of `StreamSession::exp` from `session.rs`: despite its comment
("wrapper around reader::read_until to give more context for errors") the
body is exactly `self.reader.read_until(needle)` — nothing is added to or
changed in the reader's result. -/
def sessionExp (n : NeedleT) (st : RState) (timeout : Option Nat) : RUOut n.Interest :=
  readUntil n st timeout

/-- A session-layer error: `crate::errors` is an `error_chain`, so
`format!(..).into()` produces the stringly `Msg` kind; `UnknownControlChar`
is a distinct kind (present in the crate's `thiserror` error enum). -/
inductive SessErr where
  | msg : Buf → SessErr
  | unknownControlChar : Nat → SessErr
  deriving DecidableEq, Repr

/-- Result of `send_control`: the bytes written (and flushed), or an error. -/
inductive SendRes where
  | ok : List Nat → SendRes
  | err : SessErr → SendRes
  deriving DecidableEq, Repr

/-- Model of `StreamSession::send_control` from `session.rs`: the control-code match
(`'a'..='z' => c + 1 - 'a'`, `'A'..='Z' => c + 1 - 'A'`, `'[' => 27`,
`'\\' => 28, ']' => 29, '^' => 30, '_' => 31`), writing and flushing the
single byte; any other character returns
`Err(format!("I don't understand Ctrl-{}", c).into())` before writing. -/
def sendControl (c : Nat) : SendRes :=
  if 97 ≤ c ∧ c ≤ 122 then .ok [c + 1 - 97]
  else if 65 ≤ c ∧ c ≤ 90 then .ok [c + 1 - 65]
  else if c = 91 then .ok [27]
  else if c = 92 then .ok [28]
  else if c = 93 then .ok [29]
  else if c = 94 then .ok [30]
  else if c = 95 then .ok [31]
  else .err (.msg (strM "I don" ++ [39] ++ strM "t understand Ctrl-" ++ [c]))

/-- Whether a `send_control` result is the `UnknownControlChar` error kind. -/
def isUnknownControlCharErr : SendRes → Bool
  | .err (.unknownControlChar _) => true
  | _ => false

/-! `PtyProcess::kill` (`process.rs`) -/

/-- Model of `nix::sys::wait::WaitStatus`, as far as `kill` inspects it. -/
inductive WaitStatusM where
  | stillAlive : WaitStatusM
  | exited : Int → Nat → WaitStatusM
  | signaled : Int → Nat → WaitStatusM
  deriving DecidableEq, Repr

/-- Result of one `signal::kill` system call. -/
inductive SigRes where
  | ok : SigRes
  | esrch : SigRes
  | otherErr : SigRes
  deriving DecidableEq, Repr

/-- A signal send recorded during `kill`: the requested signal, or the
`SIGKILL` escalation. -/
inductive SigSent where
  | theSig : SigSent
  | sigkill : SigSent
  deriving DecidableEq, Repr

/-- The environment's responses for one iteration of the `kill` loop:
the result of sending `sig`, the child status `waitpid` reports, whether
`start.elapsed() > timeout` at this iteration, and the result of the
`SIGKILL` send should it be attempted. -/
structure KillIter where
  sigResult : SigRes
  status : Option WaitStatusM
  elapsed : Bool
  sigkillResult : SigRes
  deriving DecidableEq, Repr

/-- Model of `PtyProcess::kill` from `process.rs`, driven by a trace of per-iteration
environment responses (one `KillIter` per pass through the `loop`).  Returns
the outcome — `none` when the trace ran out with the loop still going,
`some (.ok status)` / `some (.error ())` otherwise — together with every
signal sent, in order.  Each pass: send `sig` (on `ESRCH` return
`Ok(Exited(0, 0))`, on another error return `Err`); poll `status()` and
return any status other than `StillAlive`, else sleep 100 ms; if a
kill-timeout is configured and has elapsed, send `SIGKILL` (propagating its
error) and continue the loop. -/
def killRun (hasTimeout : Bool) : List KillIter → Option (Except Unit WaitStatusM) × List SigSent
  | [] => (none, [])
  | it :: rest =>
    let cont : Option (Except Unit WaitStatusM) × List SigSent :=
      if hasTimeout ∧ it.elapsed then
        match it.sigkillResult with
        | .ok =>
          let r := killRun hasTimeout rest
          (r.1, .theSig :: .sigkill :: r.2)
        | _ => (some (.error ()), [.theSig, .sigkill])
      else
        let r := killRun hasTimeout rest
        (r.1, .theSig :: r.2)
    match it.sigResult with
    | .esrch => (some (.ok (.exited 0 0)), [.theSig])
    | .otherErr => (some (.error ()), [.theSig])
    | .ok =>
      match it.status with
      | some .stillAlive => cont
      | some (.exited p code) => (some (.ok (.exited p code)), [.theSig])
      | some (.signaled p sg) => (some (.ok (.signaled p sg)), [.theSig])
      | none => cont

example : readUntil .eof ⟨strM "ab", true, []⟩ none
    = .ok (strM "ab") ⟨[], true, []⟩ := rfl

example : readUntil (.str (strM "\n")) ⟨strM "ab", true, []⟩ none
    = .eofErr errNeedle (strM "ab") none ⟨strM "ab", true, []⟩ := by decide

example : readUntil (.str (strM "z")) ⟨strM "a\nb", false, []⟩ (some 7)
    = .timeoutErr errNeedle (strM "a`\\n`\nb") 7 ⟨strM "a\nb", false, []⟩ := by decide

example : sendControl 99 = .ok [3] := by decide

example : killRun true [⟨.esrch, none, false, .ok⟩] = (some (.ok (.exited 0 0)), [.theSig]) := rfl

/-! Byte-position lemmas -/

lemma charBytes_pos (c : Nat) : 0 < charBytes c := by
  unfold charBytes
  split <;> [skip; split] <;> [omega; skip; split] <;> omega

lemma byteLen_append (a b : Buf) : byteLen (a ++ b) = byteLen a + byteLen b := by
  induction a with
  | nil => simp [byteLen]
  | cons c rest ih => simp [byteLen, ih]; omega

lemma splitAtBytes_zero (s : Buf) : splitAtBytes 0 s = some ([], s) := by
  cases s <;> rfl

lemma splitAtBytes_cons_pos (n c : Nat) (cs : Buf) (h : 0 < n) :
    splitAtBytes n (c :: cs)
      = if charBytes c ≤ n then
          (splitAtBytes (n - charBytes c) cs).map (fun p => (c :: p.1, p.2))
        else none := by
  cases n with
  | zero => omega
  | succ m => rfl

/-- Splitting `a ++ b` at the byte length of `a` recovers `(a, b)`. -/
lemma splitAtBytes_append (a b : Buf) :
    splitAtBytes (byteLen a) (a ++ b) = some (a, b) := by
  induction a with
  | nil => simp [byteLen, splitAtBytes_zero]
  | cons c rest ih =>
    have hc := charBytes_pos c
    have hpos : 0 < byteLen (c :: rest) := by simp [byteLen]; omega
    rw [List.cons_append, splitAtBytes_cons_pos _ _ _ hpos]
    have hle : charBytes c ≤ byteLen (c :: rest) := by simp [byteLen]
    rw [if_pos hle]
    have : byteLen (c :: rest) - charBytes c = byteLen rest := by simp [byteLen]
    rw [this, ih]
    rfl

/-- Splitting a buffer at its own byte length yields the whole buffer. -/
lemma splitAtBytes_all (s : Buf) : splitAtBytes (byteLen s) s = some (s, []) := by
  have := splitAtBytes_append s []
  simpa using this

/-- A successful byte split decomposes the buffer, and the byte index is the
byte length of the left part. -/
lemma splitAtBytes_spec (n : Nat) (s pre suf : Buf)
    (h : splitAtBytes n s = some (pre, suf)) :
    s = pre ++ suf ∧ byteLen pre = n := by
  induction s generalizing n pre suf with
  | nil =>
    cases n with
    | zero =>
      simp only [splitAtBytes_zero, Option.some.injEq, Prod.mk.injEq] at h
      obtain ⟨h1, h2⟩ := h
      subst h1; subst h2
      exact ⟨rfl, rfl⟩
    | succ m => simp [splitAtBytes] at h
  | cons c cs ih =>
    cases n with
    | zero =>
      simp only [splitAtBytes_zero, Option.some.injEq, Prod.mk.injEq] at h
      obtain ⟨h1, h2⟩ := h
      subst h1; subst h2
      exact ⟨by simp, rfl⟩
    | succ m =>
      rw [splitAtBytes_cons_pos _ _ _ (Nat.succ_pos m)] at h
      by_cases hle : charBytes c ≤ m + 1
      · rw [if_pos hle, Option.map_eq_some'] at h
        obtain ⟨⟨p1, p2⟩, hp, heq⟩ := h
        obtain ⟨hcs, hlen⟩ := ih _ _ _ hp
        cases heq
        constructor
        · simp [hcs]
        · simp [byteLen, hlen]; omega
      · rw [if_neg hle] at h
        exact absurd h (by simp)

/-- A positive `leadsWith` test means the second buffer extends the first. -/
lemma leadsWith_eq (n : Buf) : ∀ (h : Buf), leadsWith n h = true →
    ∃ t, h = n ++ t := by
  induction n with
  | nil => exact fun h _ => ⟨h, rfl⟩
  | cons a as ih =>
    intro h hp
    cases h with
    | nil => simp [leadsWith] at hp
    | cons b bs =>
      simp only [leadsWith, Bool.and_eq_true, beq_iff_eq] at hp
      obtain ⟨rfl, h2⟩ := hp
      obtain ⟨t, rfl⟩ := ih bs h2
      exact ⟨t, rfl⟩

/-- The split of `strFindSplit` puts back together to the buffer, with an
occurrence of the needle starting the right part. -/
lemma strFindSplit_spec (needle hay pre suf : Buf)
    (h : strFindSplit needle hay = some (pre, suf)) :
    hay = pre ++ suf ∧ ∃ rest, suf = needle ++ rest := by
  induction hay generalizing pre suf with
  | nil =>
    by_cases he : needle.isEmpty
    · simp [strFindSplit, he] at h
      obtain ⟨h1, h2⟩ := h
      subst h1; subst h2
      exact ⟨rfl, [], by simp [List.isEmpty_iff.mp he]⟩
    · simp [strFindSplit, he] at h
  | cons c rest ih =>
    by_cases hp : leadsWith needle (c :: rest) = true
    · simp [strFindSplit, hp] at h
      obtain ⟨h1, h2⟩ := h
      subst h1; subst h2
      obtain ⟨t, ht⟩ := leadsWith_eq needle _ hp
      exact ⟨rfl, t, ht⟩
    · rw [strFindSplit, if_neg (by simpa using hp), Option.map_eq_some'] at h
      obtain ⟨⟨p1, p2⟩, hrec, heq⟩ := h
      obtain ⟨hr, t, ht⟩ := ih _ _ hrec
      cases heq
      exact ⟨by simp [hr], t, ht⟩

/-! Decomposition of a successful `find` -/

/-- Well-formedness of the needles appearing in a compound needle: every
regex matcher splits the buffer consistently with the contract of
`regex::Regex::find` (the library guarantees this for real regexes). -/
def WFNeedle : NeedleT → Prop
  | .regx r => ∀ buffer pre mat rest, r buffer = some (pre, mat, rest) →
      buffer = pre ++ mat ++ rest
  | .untilOr a b => WFNeedle a ∧ WFNeedle b
  | _ => True

/-- What the interest of a match is built from, per needle:
* `Str`: the buffer text before the match, i.e. `buffer[..begin]`;
* `Regx`: the pair `(buffer[..mat.start()], buffer[mat.start()..mat.end()])`
  from the regex match offsets (note: *not* `buffer[..begin]`, since the
  match's `begin` field is `0`);
* `EOF`: the whole buffer;
* `NBytes`: the consumed bytes `buffer[..end]`;
* `UntilOr`: one branch's interest, wrapped `Lhs`/`Rhs`, with the branch's
  positions. -/
def InterestSpec : (n : NeedleT) → Buf → Bool → MatchT n.Interest → Prop
  | .str _, buffer, _, m => ∃ suf, splitAtBytes m.begin buffer = some (m.interest, suf)
  | .regx r, buffer, _, m =>
      ∃ pre mat rest, r buffer = some (pre, mat, rest) ∧ m.begin = 0 ∧
        m.endPos = byteLen pre + byteLen mat ∧ m.interest = (pre, mat)
  | .eof, buffer, _, m => m.interest = buffer
  | .nbytes _, buffer, _, m => ∃ suf, splitAtBytes m.endPos buffer = some (m.interest, suf)
  | .untilOr a b, buffer, e, m =>
      (∃ ma, a.find buffer e = .found ma ∧ m.begin = ma.begin ∧ m.endPos = ma.endPos ∧
          m.interest = Sum.inl ma.interest ∧ InterestSpec a buffer e ma) ∨
      (∃ mb, b.find buffer e = .found mb ∧ m.begin = mb.begin ∧ m.endPos = mb.endPos ∧
          m.interest = Sum.inr mb.interest ∧ InterestSpec b buffer e mb)

/-- A successful `find` on a well-formed needle yields positions on
character boundaries: the buffer splits as `a ++ b ++ c` with
`begin = |a|` and `end = |a| + |b|` in bytes. -/
lemma find_found_splits : ∀ (n : NeedleT) (buffer : Buf) (e : Bool),
    WFNeedle n → ∀ (m : MatchT n.Interest), n.find buffer e = .found m →
    ∃ a b c, buffer = a ++ b ++ c ∧ byteLen a = m.begin ∧
      byteLen a + byteLen b = m.endPos := by
  intro n
  induction n with
  | str s =>
    intro buffer e _ m h
    simp only [NeedleT.find] at h
    cases heq : strFindSplit s buffer with
    | none => rw [heq] at h; exact absurd h (by simp)
    | some p =>
      obtain ⟨pre, suf⟩ := p
      rw [heq] at h
      simp only [FindRes.found.injEq] at h
      obtain ⟨hbuf, t, ht⟩ := strFindSplit_spec s buffer pre suf heq
      refine ⟨pre, s, t, ?_, ?_, ?_⟩
      · rw [hbuf, ht]; simp
      · rw [← h]
      · rw [← h]
  | regx r =>
    intro buffer e hwf m h
    simp only [NeedleT.find] at h
    cases heq : r buffer with
    | none => rw [heq] at h; exact absurd h (by simp)
    | some p =>
      obtain ⟨pre, mat, rest⟩ := p
      rw [heq] at h
      simp only [FindRes.found.injEq] at h
      refine ⟨[], pre ++ mat, rest, ?_, ?_, ?_⟩
      · simpa [List.append_assoc] using hwf buffer pre mat rest heq
      · rw [← h]; rfl
      · rw [← h]; simp [byteLen, byteLen_append]
  | eof =>
    intro buffer e _ m h
    simp only [NeedleT.find] at h
    by_cases he : e = true
    · rw [if_pos he] at h
      simp only [FindRes.found.injEq] at h
      refine ⟨[], buffer, [], by simp, ?_, ?_⟩
      · rw [← h]; rfl
      · rw [← h]; simp [byteLen]
    · rw [if_neg he] at h; exact absurd h (by simp)
  | nbytes k =>
    intro buffer e _ m h
    simp only [NeedleT.find] at h
    by_cases hk : k ≤ byteLen buffer
    · rw [if_pos hk] at h
      cases heq : splitAtBytes k buffer with
      | none => rw [heq] at h; exact absurd h (by simp)
      | some p =>
        obtain ⟨pre, suf⟩ := p
        rw [heq] at h
        simp only [FindRes.found.injEq] at h
        obtain ⟨hbuf, hlen⟩ := splitAtBytes_spec k buffer pre suf heq
        refine ⟨[], pre, suf, by simpa using hbuf, ?_, ?_⟩
        · rw [← h]; rfl
        · rw [← h]; simp [byteLen, hlen]
    · rw [if_neg hk] at h
      by_cases hc : e = true ∧ 0 < byteLen buffer
      · rw [if_pos hc] at h
        simp only [FindRes.found.injEq] at h
        refine ⟨[], buffer, [], by simp, ?_, ?_⟩
        · rw [← h]; rfl
        · rw [← h]; simp [byteLen]
      · rw [if_neg hc] at h; exact absurd h (by simp)
  | untilOr a b iha ihb =>
    intro buffer e hwf m h
    simp only [NeedleT.find] at h
    cases ha : a.find buffer e with
    | found ma =>
      rw [ha] at h
      simp only [FindRes.found.injEq] at h
      obtain ⟨x, y, z, hb, h1, h2⟩ := iha buffer e hwf.1 ma ha
      exact ⟨x, y, z, hb, by rw [← h]; exact h1, by rw [← h]; exact h2⟩
    | panicked => rw [ha] at h; exact absurd h (by simp)
    | miss =>
      rw [ha] at h
      cases hb : b.find buffer e with
      | found mb =>
        rw [hb] at h
        simp only [FindRes.found.injEq] at h
        obtain ⟨x, y, z, hbuf, h1, h2⟩ := ihb buffer e hwf.2 mb hb
        exact ⟨x, y, z, hbuf, by rw [← h]; exact h1, by rw [← h]; exact h2⟩
      | panicked => rw [hb] at h; exact absurd h (by simp)
      | miss => rw [hb] at h; exact absurd h (by simp)

/-- A successful `find` builds its interest as described by `InterestSpec`. -/
lemma find_found_interest : ∀ (n : NeedleT) (buffer : Buf) (e : Bool)
    (m : MatchT n.Interest), n.find buffer e = .found m →
    InterestSpec n buffer e m := by
  intro n
  induction n with
  | str s =>
    intro buffer e m h
    simp only [NeedleT.find] at h
    cases heq : strFindSplit s buffer with
    | none => rw [heq] at h; exact absurd h (by simp)
    | some p =>
      obtain ⟨pre, suf⟩ := p
      rw [heq] at h
      simp only [FindRes.found.injEq] at h
      obtain ⟨hbuf, _, _⟩ := strFindSplit_spec s buffer pre suf heq
      refine ⟨suf, ?_⟩
      rw [← h]
      show splitAtBytes (byteLen pre) buffer = some (pre, suf)
      rw [hbuf]; exact splitAtBytes_append pre suf
  | regx r =>
    intro buffer e m h
    simp only [NeedleT.find] at h
    cases heq : r buffer with
    | none => rw [heq] at h; exact absurd h (by simp)
    | some p =>
      obtain ⟨pre, mat, rest⟩ := p
      rw [heq] at h
      simp only [FindRes.found.injEq] at h
      exact ⟨pre, mat, rest, heq, by rw [← h], by rw [← h], by rw [← h]⟩
  | eof =>
    intro buffer e m h
    simp only [NeedleT.find] at h
    by_cases he : e = true
    · rw [if_pos he] at h
      simp only [FindRes.found.injEq] at h
      show m.interest = buffer
      rw [← h]
    · rw [if_neg he] at h; exact absurd h (by simp)
  | nbytes k =>
    intro buffer e m h
    simp only [NeedleT.find] at h
    by_cases hk : k ≤ byteLen buffer
    · rw [if_pos hk] at h
      cases heq : splitAtBytes k buffer with
      | none => rw [heq] at h; exact absurd h (by simp)
      | some p =>
        obtain ⟨pre, suf⟩ := p
        rw [heq] at h
        simp only [FindRes.found.injEq] at h
        refine ⟨suf, ?_⟩
        rw [← h]
        exact heq
    · rw [if_neg hk] at h
      by_cases hc : e = true ∧ 0 < byteLen buffer
      · rw [if_pos hc] at h
        simp only [FindRes.found.injEq] at h
        refine ⟨[], ?_⟩
        rw [← h]
        exact splitAtBytes_all buffer
      · rw [if_neg hc] at h; exact absurd h (by simp)
  | untilOr a b iha ihb =>
    intro buffer e m h
    simp only [NeedleT.find] at h
    cases ha : a.find buffer e with
    | found ma =>
      rw [ha] at h
      simp only [FindRes.found.injEq] at h
      exact Or.inl ⟨ma, ha, by rw [← h], by rw [← h], by rw [← h], iha buffer e ma ha⟩
    | panicked => rw [ha] at h; exact absurd h (by simp)
    | miss =>
      rw [ha] at h
      cases hb : b.find buffer e with
      | found mb =>
        rw [hb] at h
        simp only [FindRes.found.injEq] at h
        exact Or.inr ⟨mb, hb, by rw [← h], by rw [← h], by rw [← h], ihb buffer e mb hb⟩
      | panicked => rw [hb] at h; exact absurd h (by simp)
      | miss => rw [hb] at h; exact absurd h (by simp)

/-- With no channel items pending, `read_into_buffer` changes nothing. -/
lemma readIntoBuffer_nil (buffer : Buf) (e : Bool) :
    readIntoBuffer ⟨buffer, e, []⟩ = ⟨buffer, e, []⟩ := by
  cases e <;> simp [readIntoBuffer, drainItems]

/-! C1 — what `read_until` returns and consumes -/

/-- C1 (amended).  Whenever `needle.find(buffer, eof)` returns a match `m`
(needle well-formed), `read_until` succeeds: exactly the first `m.end`
bytes are removed from the front of the buffer (the two `drain` calls hit
character boundaries), the returned value is `m.interest`, and the interest
is built as `InterestSpec` states — for `Str` the prefix `buffer[..begin]`,
for `EOF`/`NBytes` the matched bytes `buffer[begin..end]`, but for `Regx`
the pair built from the regex match's own start/end offsets, `begin` being
`0` there. -/
theorem readUntil_consumes_match (n : NeedleT) (buffer : Buf) (e : Bool)
    (timeout : Option Nat) (m : MatchT n.Interest)
    (hwf : WFNeedle n) (h : n.find buffer e = .found m) :
    ∃ pre rest, splitAtBytes m.endPos buffer = some (pre, rest) ∧
      readUntil n ⟨buffer, e, []⟩ timeout = .ok m.interest ⟨rest, e, []⟩ ∧
      InterestSpec n buffer e m := by
  obtain ⟨a, b, c, hbuf, h1, h2⟩ := find_found_splits n buffer e hwf m h
  have hbegin : splitAtBytes m.begin buffer = some (a, b ++ c) := by
    rw [hbuf, ← h1, List.append_assoc]
    exact splitAtBytes_append a (b ++ c)
  have hmid : splitAtBytes (m.endPos - m.begin) (b ++ c) = some (b, c) := by
    have harith : m.endPos - m.begin = byteLen b := by omega
    rw [harith]
    exact splitAtBytes_append b c
  have hend : splitAtBytes m.endPos buffer = some (a ++ b, c) := by
    rw [hbuf, ← h2, ← byteLen_append]
    exact splitAtBytes_append (a ++ b) c
  refine ⟨a ++ b, c, hend, ?_, find_found_interest n buffer e m h⟩
  simp only [readUntil, readIntoBuffer_nil, h, hbegin, hmid]

/-- Witness for C1 at a concrete input: `Str("lo")` against `"hello!"`
matches at bytes `(3, 5)`; `read_until` returns the prefix `"hel"` and
leaves `"!"` in the buffer. -/
theorem readUntil_consumes_match_witness :
    ∃ pre rest, splitAtBytes 5 (strM "hello!") = some (pre, rest) ∧
      readUntil (.str (strM "lo")) ⟨strM "hello!", false, []⟩ none
        = .ok (strM "hel") ⟨rest, false, []⟩ ∧
      InterestSpec (.str (strM "lo")) (strM "hello!") false ⟨3, 5, strM "hel"⟩ :=
  readUntil_consumes_match (.str (strM "lo")) (strM "hello!") false none
    ⟨3, 5, strM "hel"⟩ trivial rfl

/-- C1 as literally stated is false for `Regx`: with a matcher finding the
first digit, on buffer `"ab1"` the match positions are `(begin, end) = (0, 3)`,
so the claim predicts the interest `(buffer[..0], buffer[0..3]) = ("", "ab1")`,
but `read_until` returns `("ab", "1")` (built from the regex match offsets). -/
theorem readUntil_regx_interest_counterexample :
    NeedleT.find (.regx digitM) (strM "ab1") false
      = .found ⟨0, 3, (strM "ab", strM "1")⟩ ∧
    readUntil (.regx digitM) ⟨strM "ab1", false, []⟩ none
      = .ok (strM "ab", strM "1") ⟨[], false, []⟩ ∧
    splitAtBytes 0 (strM "ab1") = some ([], strM "ab1") ∧
    splitAtBytes 3 (strM "ab1") = some (strM "ab1", []) ∧
    (strM "ab", strM "1") ≠ (([] : Buf), strM "ab1") := by
  refine ⟨rfl, rfl, rfl, rfl, ?_⟩
  decide

/-! C2 — the EOF flag is sticky -/

/-- C2.  Once the reader's eof flag is set, `read_into_buffer` drains
nothing and changes nothing; `read_until(&EOF)` then succeeds immediately,
the first call returning the whole remaining buffer and emptying it, and
any call on the emptied reader returning the empty string, whatever items
still sit in the channel. -/
theorem eof_sticky_readUntil (st : RState) (timeout : Option Nat) (h : st.eof = true) :
    readIntoBuffer st = st ∧
    readUntil .eof st timeout = .ok st.buffer ⟨[], true, st.pending⟩ ∧
    readUntil .eof ⟨[], true, st.pending⟩ timeout
      = .ok ([] : Buf) ⟨[], true, st.pending⟩ := by
  have hri : readIntoBuffer st = st := by simp [readIntoBuffer, h]
  refine ⟨hri, ?_, ?_⟩
  · simp only [readUntil, hri, NeedleT.find, h, if_true, splitAtBytes_zero,
      Nat.sub_zero, splitAtBytes_all]
  · simp only [readUntil, readIntoBuffer, if_true, NeedleT.find, byteLen,
      splitAtBytes_zero, Nat.sub_zero, splitAtBytes_all]

/-- Witness for C2: a reader at eof with buffer `"ab"` and a byte still in
the channel: no drain happens, the first `read_until(&EOF)` returns `"ab"`
and empties the buffer, the next returns `""`. -/
theorem eof_sticky_readUntil_witness :
    readIntoBuffer ⟨strM "ab", true, [.char 99]⟩ = ⟨strM "ab", true, [.char 99]⟩ ∧
    readUntil .eof ⟨strM "ab", true, [.char 99]⟩ none
      = .ok (strM "ab") ⟨[], true, [.char 99]⟩ ∧
    readUntil .eof ⟨[], true, [.char 99]⟩ none
      = .ok ([] : Buf) ⟨[], true, [.char 99]⟩ :=
  eof_sticky_readUntil ⟨strM "ab", true, [.char 99]⟩ none rfl

/-! C3 — `NBytes` semantics -/

/-- C3.  Where `NBytes(n).find` returns at all (no panic on a mid-character
byte index), it matches iff `n ≤ len(buffer)` or (`eof` and the buffer is
non-empty); a match has `begin = 0` and `end = min n (len buffer)`; against
a shorter buffer it returns nothing while `eof` is false and the whole
remaining buffer once `eof` holds. -/
theorem nbytes_find_spec (k : Nat) (buffer : Buf) (e : Bool)
    (h : NeedleT.find (.nbytes k) buffer e ≠ .panicked) :
    ((∃ m, NeedleT.find (.nbytes k) buffer e = .found m) ↔
      (k ≤ byteLen buffer ∨ (e = true ∧ 0 < byteLen buffer))) ∧
    (∀ m, NeedleT.find (.nbytes k) buffer e = .found m →
      m.begin = 0 ∧ m.endPos = min k (byteLen buffer)) ∧
    (byteLen buffer < k → e = false → NeedleT.find (.nbytes k) buffer e = .miss) ∧
    (byteLen buffer < k → e = true → 0 < byteLen buffer →
      NeedleT.find (.nbytes k) buffer e = .found ⟨0, byteLen buffer, buffer⟩) := by
  by_cases hk : k ≤ byteLen buffer
  · cases heq : splitAtBytes k buffer with
    | none =>
      exact absurd (by simp [NeedleT.find, hk, heq]) h
    | some p =>
      obtain ⟨pre, suf⟩ := p
      have hfind : NeedleT.find (.nbytes k) buffer e = .found ⟨0, k, pre⟩ := by
        simp [NeedleT.find, hk, heq]
      refine ⟨⟨fun _ => Or.inl hk, fun _ => ⟨_, hfind⟩⟩, ?_, ?_, ?_⟩
      · intro m hm
        rw [hfind] at hm
        simp only [FindRes.found.injEq] at hm
        constructor
        · rw [← hm]
        · rw [← hm]
          show k = min k (byteLen buffer)
          omega
      · intro hlt; omega
      · intro hlt; omega
  · by_cases hc : e = true ∧ 0 < byteLen buffer
    · have hfind : NeedleT.find (.nbytes k) buffer e
          = .found ⟨0, byteLen buffer, buffer⟩ := by
        simp [NeedleT.find, hk, hc]
      refine ⟨⟨fun _ => Or.inr hc, fun _ => ⟨_, hfind⟩⟩, ?_, ?_, ?_⟩
      · intro m hm
        rw [hfind] at hm
        simp only [FindRes.found.injEq] at hm
        constructor
        · rw [← hm]
        · rw [← hm]
          show byteLen buffer = min k (byteLen buffer)
          omega
      · intro _ hef
        rw [hef] at hc
        simp at hc
      · intro _ _ _
        exact hfind
    · have hfind : NeedleT.find (.nbytes k) buffer e = .miss := by
        simp only [NeedleT.find, if_neg hk, if_neg hc]
      refine ⟨⟨?_, ?_⟩, ?_, ?_, ?_⟩
      · intro ⟨m, hm⟩
        rw [hfind] at hm
        exact absurd hm (by simp)
      · intro hor
        rcases hor with h1 | h2
        · exact absurd h1 hk
        · exact absurd h2 hc
      · intro m hm
        rw [hfind] at hm
        exact absurd hm (by simp)
      · intro _ _
        exact hfind
      · intro _ he hp
        exact absurd ⟨he, hp⟩ hc

/-- Witness for C3 at `n = 4`, buffer `"abc"`: no match while the stream is
open, match of the whole remainder at eof, with `end = min 4 3 = 3`. -/
theorem nbytes_find_spec_witness :
    (NeedleT.find (.nbytes 4) (strM "abc") false ≠ .panicked) ∧
    NeedleT.find (.nbytes 4) (strM "abc") false = .miss ∧
    NeedleT.find (.nbytes 4) (strM "abc") true = .found ⟨0, 3, strM "abc"⟩ :=
  ⟨by decide,
   (nbytes_find_spec 4 (strM "abc") false (by decide)).2.2.1 (by decide) rfl,
   (nbytes_find_spec 4 (strM "abc") true (by decide)).2.2.2 (by decide) rfl (by decide)⟩

/-! C4 — alternation returns the first declared alternative -/

/-- C4.  `UntilOr(a, b).find` returns `a`'s match (wrapped `Lhs`, with
`a`'s positions) whenever `a` matches — regardless of where in the buffer
`b` would match — and `b`'s match wrapped `Rhs` when `a` misses; it misses
iff both alternatives miss. -/
theorem untilOr_first_match_wins (a b : NeedleT) (buffer : Buf) (e : Bool) :
    (∀ ma, a.find buffer e = .found ma →
      NeedleT.find (.untilOr a b) buffer e
        = .found ⟨ma.begin, ma.endPos, Sum.inl ma.interest⟩) ∧
    (a.find buffer e = .miss → ∀ mb, b.find buffer e = .found mb →
      NeedleT.find (.untilOr a b) buffer e
        = .found ⟨mb.begin, mb.endPos, Sum.inr mb.interest⟩) ∧
    (NeedleT.find (.untilOr a b) buffer e = .miss ↔
      (a.find buffer e = .miss ∧ b.find buffer e = .miss)) := by
  refine ⟨?_, ?_, ?_⟩
  · intro ma hma
    simp [NeedleT.find, hma]
  · intro hmiss mb hmb
    simp [NeedleT.find, hmiss, hmb]
  · cases ha : a.find buffer e with
    | found ma => simp [NeedleT.find, ha]
    | panicked => simp [NeedleT.find, ha]
    | miss =>
      cases hb : b.find buffer e with
      | found mb => simp [NeedleT.find, ha, hb]
      | panicked => simp [NeedleT.find, ha, hb]
      | miss => simp [NeedleT.find, ha, hb]

/-- Witness for C4: in `Until(Str("xy")).or(Str("a"))` against `"aaxy"`,
the second alternative matches at buffer position 0 and the first at
position 2, yet the combined needle returns the first alternative's match. -/
theorem untilOr_first_match_wins_witness :
    NeedleT.find (.str (strM "a")) (strM "aaxy") false = .found ⟨0, 1, []⟩ ∧
    NeedleT.find (.untilOr (.str (strM "xy")) (.str (strM "a"))) (strM "aaxy") false
      = .found ⟨2, 4, Sum.inl (strM "aa")⟩ :=
  ⟨rfl,
   (untilOr_first_match_wins (.str (strM "xy")) (.str (strM "a"))
      (strM "aaxy") false).1 ⟨2, 4, strM "aa"⟩ rfl⟩

/-! C5 — the session does not enrich the reader's EOF error -/

/-- C5 (code bug).  `StreamSession::exp` is a bare pass-through of
`read_until`: when the reader fails with EOF it leaves `exit_code = None`
(its comment says "this will be filled out in session::exp()", and `exp`'s
own comment promises "more context for errors"), but `exp` adds nothing,
so the error reaches the caller with `exit_code` still `None` instead of
the child's rendered `status()`.  Shown here: `exp` equals `read_until`
on every input, and at a concrete EOF failure the surfaced error still
carries `none`. -/
theorem exp_no_eof_enrichment :
    (∀ (n : NeedleT) (st : RState) (timeout : Option Nat),
      sessionExp n st timeout = readUntil n st timeout) ∧
    sessionExp (.str (strM "\n")) ⟨strM "ab", true, []⟩ (some 1000)
      = .eofErr errNeedle (strM "ab") none ⟨strM "ab", true, []⟩ :=
  ⟨fun _ _ _ => rfl, by decide⟩

/-! C6 — the `expected` field of `read_until` errors -/

/-- C6 (code bug).  `read_until` never renders the needle into its errors:
both the EOF and the Timeout error carry the literal placeholder
`"ERROR NEEDLE"` as their `expected` field (the needle's `Display` bound on
`read_until` goes unused), while the `got` fields are as specified — the
current buffer for EOF, the sanitized buffer for Timeout.  Shown at the
needle `NBytes(5)` (display `"reading 5 bytes"`) for the EOF error and at
`Str("z")` on a buffer containing a newline for the Timeout error. -/
theorem readUntil_expected_placeholder :
    readUntil (.nbytes 5) ⟨[], true, []⟩ none
      = .eofErr (strM "ERROR NEEDLE") ([] : Buf) none ⟨[], true, []⟩ ∧
    displayN (.nbytes 5) = some (strM "reading 5 bytes") ∧
    strM "ERROR NEEDLE" ≠ strM "reading 5 bytes" ∧
    readUntil (.str (strM "z")) ⟨strM "a\nb", false, []⟩ (some 7)
      = .timeoutErr (strM "ERROR NEEDLE") (strM "a`\\n`\nb") 7
          ⟨strM "a\nb", false, []⟩ ∧
    sanitize (strM "a\nb") = strM "a`\\n`\nb" := by
  refine ⟨by decide, by decide, by decide, by decide, by decide⟩

/-! C7 — `send_control` -/

/-- C7 as stated is false about the error kind: on an unsupported character
(`'1'`, code 49) `send_control` fails with the generic
`format!("I don't understand Ctrl-{}", c)` message error, not with the
`UnknownControlChar` kind. -/
theorem send_control_unknown_counterexample :
    sendControl 49 = .err (.msg (strM "I don" ++ [39] ++ strM "t understand Ctrl-1")) ∧
    isUnknownControlCharErr (sendControl 49) = false := by
  refine ⟨by decide, by decide⟩

/-- C7 (amended).  `send_control(c)` writes and flushes exactly the one
byte given by the documented table — `'a'..='z'` and `'A'..='Z'` to
`1..=26`, `'['` to 27, `'\\'` to 28, `']'` to 29, `'^'` to 30, `'_'` to 31 —
and for every other character writes nothing and fails, with the message
error `"I don't understand Ctrl-<c>"` (not a dedicated error kind). -/
theorem send_control_spec (c : Nat) :
    (97 ≤ c → c ≤ 122 → sendControl c = .ok [c + 1 - 97]
      ∧ 1 ≤ c + 1 - 97 ∧ c + 1 - 97 ≤ 26) ∧
    (65 ≤ c → c ≤ 90 → sendControl c = .ok [c + 1 - 65]
      ∧ 1 ≤ c + 1 - 65 ∧ c + 1 - 65 ≤ 26) ∧
    sendControl 91 = .ok [27] ∧
    sendControl 92 = .ok [28] ∧
    sendControl 93 = .ok [29] ∧
    sendControl 94 = .ok [30] ∧
    sendControl 95 = .ok [31] ∧
    (¬(97 ≤ c ∧ c ≤ 122) → ¬(65 ≤ c ∧ c ≤ 90) → ¬(91 ≤ c ∧ c ≤ 95) →
      sendControl c
        = .err (.msg (strM "I don" ++ [39] ++ strM "t understand Ctrl-" ++ [c]))) := by
  refine ⟨?_, ?_, by decide, by decide, by decide, by decide, by decide, ?_⟩
  · intro h1 h2
    refine ⟨?_, by omega, by omega⟩
    simp only [sendControl, if_pos (And.intro h1 h2)]
  · intro h1 h2
    have hno : ¬(97 ≤ c ∧ c ≤ 122) := by omega
    refine ⟨?_, by omega, by omega⟩
    simp only [sendControl, if_neg hno, if_pos (And.intro h1 h2)]
  · intro h1 h2 h3
    have e1 : ¬ c = 91 := by omega
    have e2 : ¬ c = 92 := by omega
    have e3 : ¬ c = 93 := by omega
    have e4 : ¬ c = 94 := by omega
    have e5 : ¬ c = 95 := by omega
    simp only [sendControl, if_neg h1, if_neg h2, if_neg e1, if_neg e2,
      if_neg e3, if_neg e4, if_neg e5]

/-- Witness for C7 at `'c'` (code 99, giving ETX = 3) and `'Z'` (code 90,
giving 26). -/
theorem send_control_spec_witness :
    sendControl 99 = .ok [3] ∧ sendControl 90 = .ok [26] :=
  ⟨((send_control_spec 99).1 (by decide) (by decide)).1,
   ((send_control_spec 90).2.1 (by decide) (by decide)).1⟩

/-! C8 — `Regx::find` positions -/

/-- C8 as stated is false: with the first-digit matcher on `"ab1"`, the
regex match starts at byte offset 2, but the `Match` returned by
`Regx::find` has `begin = 0`, not 2 (only `end` equals the match's end
offset). -/
theorem regx_find_begin_counterexample :
    digitM (strM "ab1") = some (strM "ab", strM "1", []) ∧
    NeedleT.find (.regx digitM) (strM "ab1") false
      = .found ⟨0, 3, (strM "ab", strM "1")⟩ ∧
    byteLen (strM "ab") = 2 ∧
    (0 : Nat) ≠ 2 := by
  refine ⟨by decide, rfl, by decide, by decide⟩

/-- C8 (amended).  When the regex library finds its first match — splitting
the buffer as `pre ++ mat ++ rest`, so the match spans byte offsets
`(|pre|, |pre| + |mat|)` — `Regx::find` returns a match whose `begin` is
the literal `0`, whose `end` is the match's end offset, and whose interest
carries the pair `(text before the match, matched text)`. -/
theorem regx_find_spec (r : RegexM) (buffer : Buf) (e : Bool)
    (pre mat rest : Buf) (h : r buffer = some (pre, mat, rest)) :
    NeedleT.find (.regx r) buffer e
      = .found ⟨0, byteLen pre + byteLen mat, (pre, mat)⟩ := by
  simp [NeedleT.find, h]

/-- Witness for C8: the first-digit matcher on `"ab1"`. -/
theorem regx_find_spec_witness :
    NeedleT.find (.regx digitM) (strM "ab1") true
      = .found ⟨0, byteLen (strM "ab") + byteLen (strM "1"), (strM "ab", strM "1")⟩ :=
  regx_find_spec digitM (strM "ab1") true (strM "ab") (strM "1") [] (by decide)

/-! C9 — `PtyProcess::kill`: ESRCH and SIGKILL escalation -/

/-- C9.  Inside `kill(sig)`: when sending the signal fails with `ESRCH`
the call returns `Ok(Exited(0, 0))` instead of an error; and when a
kill-timeout is configured and has elapsed while the child is still alive
(or already reaped), the pass sends `SIGKILL` after the requested signal
and the loop goes on polling `status()` on the remaining iterations. -/
theorem kill_esrch_sigkill_spec :
    (∀ (ht : Bool) (it : KillIter) (rest : List KillIter),
      it.sigResult = .esrch →
      killRun ht (it :: rest) = (some (.ok (.exited 0 0)), [.theSig])) ∧
    (∀ (it : KillIter) (rest : List KillIter),
      it.sigResult = .ok →
      (it.status = some .stillAlive ∨ it.status = none) →
      it.elapsed = true → it.sigkillResult = .ok →
      killRun true (it :: rest)
        = ((killRun true rest).1, .theSig :: .sigkill :: (killRun true rest).2)) := by
  constructor
  · intro ht it rest h
    simp [killRun, h]
  · intro it rest h1 h2 h3 h4
    rcases h2 with h2 | h2 <;> simp [killRun, h1, h2, h3, h4]

/-- Witness for C9: an `ESRCH` on the first send yields `Ok(Exited(0,0))`;
an elapsed timeout with the child still alive sends `SIGKILL` and
continues — on an empty remaining trace the loop is still running. -/
theorem kill_esrch_sigkill_spec_witness :
    killRun false [⟨.esrch, none, false, .ok⟩]
      = (some (.ok (.exited 0 0)), [.theSig]) ∧
    killRun true [⟨.ok, some .stillAlive, true, .ok⟩]
      = (none, [.theSig, .sigkill]) :=
  ⟨kill_esrch_sigkill_spec.1 false ⟨.esrch, none, false, .ok⟩ [] rfl,
   kill_esrch_sigkill_spec.2 ⟨.ok, some .stillAlive, true, .ok⟩ []
     rfl (Or.inl rfl) rfl rfl⟩

/-! C10 — `NBytes::find` never panics on ASCII buffers -/

/-- On an all-ASCII buffer, byte length and character count coincide. -/
lemma ascii_byteLen (s : Buf) (h : ∀ c ∈ s, c < 128) :
    byteLen s = s.length := by
  induction s with
  | nil => rfl
  | cons c cs ih =>
    have hlt : c < 128 := h c (by simp)
    have hc : charBytes c = 1 := by simp [charBytes, hlt]
    simp only [byteLen, hc, ih (fun x hx => h x (by simp [hx])), List.length_cons]
    omega

/-- On an all-ASCII buffer every index up to the length is a character
boundary: the byte split is just `take`/`drop`. -/
lemma ascii_splitAtBytes (s : Buf) (k : Nat) (h : ∀ c ∈ s, c < 128)
    (hk : k ≤ s.length) :
    splitAtBytes k s = some (s.take k, s.drop k) := by
  induction s generalizing k with
  | nil =>
    have : k = 0 := by simpa using hk
    subst this
    simp [splitAtBytes_zero]
  | cons c cs ih =>
    cases k with
    | zero => simp [splitAtBytes_zero]
    | succ m =>
      have hlt : c < 128 := h c (by simp)
      have hc : charBytes c = 1 := by simp [charBytes, hlt]
      rw [splitAtBytes_cons_pos _ _ _ (Nat.succ_pos m), hc, if_pos (by omega)]
      have hm : m ≤ cs.length := by simpa using hk
      rw [show m + 1 - 1 = m from rfl, ih m (fun x hx => h x (by simp [hx])) hm]
      simp

/-- C10.  On buffers of ASCII characters only — which is every buffer the
drain loop builds when the producer delivers only bytes below `0x80` —
`NBytes(n).find` is total: the slice at byte index `n` is on a character
boundary, so the panic branch is unreachable.  The restriction is needed:
a byte `0xC3` is pushed as a two-byte character, and `NBytes(1)` then
slices mid-character and panics. -/
theorem nbytes_ascii_no_panic :
    (∀ (k : Nat) (buffer : Buf) (e : Bool), (∀ c ∈ buffer, c < 128) →
      NeedleT.find (.nbytes k) buffer e ≠ .panicked) ∧
    (∀ (buffer : Buf) (e : Bool) (items : List PipedItem),
      (∀ c ∈ buffer, c < 128) → (∀ b, PipedItem.char b ∈ items → b < 128) →
      ∀ c ∈ (drainItems buffer e items).1, c < 128) ∧
    NeedleT.find (.nbytes 1) [195] false = .panicked := by
  refine ⟨?_, ?_, by decide⟩
  · intro k buffer e h
    by_cases hk : k ≤ byteLen buffer
    · have hb := ascii_byteLen buffer h
      have hs := ascii_splitAtBytes buffer k h (by omega)
      simp [NeedleT.find, hk, hs]
    · by_cases hc : e = true ∧ 0 < byteLen buffer <;>
        simp [NeedleT.find, hk, hc]
  · intro buffer e items hbuf hitems
    induction items generalizing buffer e with
    | nil => simpa [drainItems] using hbuf
    | cons it rest ih =>
      cases it with
      | char b =>
        have hb : b < 128 := hitems b (by simp)
        refine ih (buffer ++ [b]) e ?_ ?_
        · intro c hc
          rcases List.mem_append.mp hc with hc | hc
          · exact hbuf c hc
          · simpa using (by simpa using hc) ▸ hb
        · intro b' hb'
          exact hitems b' (by simp [hb'])
      | eofItem =>
        exact ih buffer true hbuf (fun b' hb' => hitems b' (by simp [hb']))
      | ioErrOther =>
        exact ih buffer true hbuf (fun b' hb' => hitems b' (by simp [hb']))
      | ioErrDifferent =>
        exact ih buffer e hbuf (fun b' hb' => hitems b' (by simp [hb']))

/-- Witness for C10 on a concrete ASCII buffer. -/
theorem nbytes_ascii_no_panic_witness :
    NeedleT.find (.nbytes 2) (strM "abc") false ≠ .panicked :=
  nbytes_ascii_no_panic.1 2 (strM "abc") false (by decide)
